import Mathlib

/-
Verification of the Looper run-loop (Examples/Looper/Looper.cpp).

The file shallowly embeds the registry of scheduled actions (detail::LoopContext)
and the Looper operations built on it.  Monotonic-clock time points are modeled
as natural numbers of clock ticks; the chrono value Timepoint.max that bounds
the wake-time computation in LoopContext::queuePending is modeled as the top
element of WithTop Nat.  Heap-allocated ManagedAction records are modeled as
list elements by value; the C++ delete of a record corresponds to dropping it
from the list.  The stateful std::function body of an action (which may answer
differently on successive invocations, and whose side effects on the loop are
limited to requesting termination via Looper::quit) is modeled as a pure
function from the invocation count to the pair (repeat?, triggersQuit?),
together with an explicit invocation counter kept next to the record.
-/

namespace Loo

/-- A point of the monotonic clock, in clock ticks. -/
abbrev Timepoint := Nat

/-- One scheduled unit of work, mirroring detail::LoopContext::ManagedAction.
The field fired counts how many times the body has been invoked so far; it is
the explicit state of the otherwise stateful C++ callable.  body k is the
result of the k-th invocation: the first component is the repeat flag the C++
body returns, the second tells whether that invocation calls Looper::quit on
the owning loop (bodies run on the loop thread and may do so). -/
structure ManagedAction where
  ticket : Nat
  body : Nat → Bool × Bool
  fired : Nat
  interval : Nat
  catchUp : Bool
  triggerTime : Timepoint
  isCancelled : Bool

/-- The registry state of detail::LoopContext: the ticket counter and the two
action sequences. -/
structure LoopContext where
  ticketCounter : Nat
  queuedActions : List ManagedAction
  pendingActions : List ManagedAction

/-- The state LoopContext::LoopContext() constructs: counter 100, both
sequences empty. -/
def LoopContext.init : LoopContext :=
  { ticketCounter := 100, queuedActions := [], pendingActions := [] }

/-- The body of the single iteration of LoopContext::runQueued that invokes a
due action: run the body once, then either reschedule per the catch-up policy
(repeat true) or mark the action cancelled (repeat false).  Returns the
updated record together with the repeat flag and the quit signal of this
invocation. -/
def fireAction (now : Nat) (a : ManagedAction) : ManagedAction × Bool × Bool :=
  let res := a.body a.fired
  if res.1 then
    ({ a with fired := a.fired + 1,
              triggerTime := if a.catchUp then a.triggerTime + a.interval
                             else now + a.interval },
     res.1, res.2)
  else
    ({ a with fired := a.fired + 1, isCancelled := true }, res.1, res.2)

/-- The iteration of LoopContext::runQueued over the queued sequence.  Returns
the updated sequence, the tickets whose bodies were invoked in order, and
whether quit was signalled (in which case the remaining iteration is
abandoned, as by the break on *quit). -/
def runQueuedGo (now : Nat) : List ManagedAction → List ManagedAction × List Nat × Bool
  | [] => ([], [], false)
  | a :: rest =>
    if a.isCancelled then
      let r := runQueuedGo now rest
      (a :: r.1, r.2)
    else if a.triggerTime ≤ now then
      let fa := fireAction now a
      if fa.2.2 then
        (fa.1 :: rest, [a.ticket], true)
      else
        let r := runQueuedGo now rest
        (fa.1 :: r.1, a.ticket :: r.2.1, r.2.2)
    else
      let r := runQueuedGo now rest
      (a :: r.1, r.2)

/-- LoopContext::runQueued: one execution pass at time now (the single
getMonotonicTime() sample taken at the top of the pass).  Returns the new
state, the log of invoked tickets, and the final value of *quit. -/
def LoopContext.runQueued (now : Nat) (s : LoopContext) : LoopContext × List Nat × Bool :=
  let r := runQueuedGo now s.queuedActions
  ({ s with queuedActions := r.1 }, r.2)

/-- LoopContext::queuePending: destroy cancelled queued entries, move the
survivors behind the pending entries (push_back onto mPendingActions followed
by the clear and swap), leave pending empty, and fold the wake time over the
new queued sequence starting from Timepoint.max. -/
def LoopContext.queuePending (s : LoopContext) : LoopContext × WithTop Nat :=
  let newQueued := s.pendingActions ++ s.queuedActions.filter (fun a => !a.isCancelled)
  let wake := newQueued.foldl
    (fun w a => if (a.triggerTime : WithTop Nat) < w then (a.triggerTime : WithTop Nat) else w)
    (⊤ : WithTop Nat)
  ({ s with queuedActions := newQueued, pendingActions := [] }, wake)

/-- LoopContext::hasPending. -/
def LoopContext.hasPending (s : LoopContext) : Bool :=
  !s.pendingActions.isEmpty

/-- The scan of LoopContext::tryCancelQueued over the queued sequence: at the
first entry carrying the ticket, answer false if it is already cancelled,
otherwise mark it cancelled in place and answer true; answer false when no
entry matches. -/
def tryCancelQueuedGo (t : Nat) : List ManagedAction → List ManagedAction × Bool
  | [] => ([], false)
  | a :: rest =>
    if a.ticket = t then
      if a.isCancelled then (a :: rest, false)
      else ({ a with isCancelled := true } :: rest, true)
    else
      let r := tryCancelQueuedGo t rest
      (a :: r.1, r.2)

/-- LoopContext::tryCancelQueued. -/
def LoopContext.tryCancelQueued (t : Nat) (s : LoopContext) : LoopContext × Bool :=
  let r := tryCancelQueuedGo t s.queuedActions
  ({ s with queuedActions := r.1 }, r.2)

/-- The scan of LoopContext::tryCancelPending over the pending sequence: the
first entry carrying the ticket is destroyed and erased and the scan answers
true; it answers false when no entry matches.  (The C++ code asserts that a
matched entry is not cancelled; the assertion is the subject of claim C10.) -/
def tryCancelPendingGo (t : Nat) : List ManagedAction → List ManagedAction × Bool
  | [] => ([], false)
  | a :: rest =>
    if a.ticket = t then (rest, true)
    else
      let r := tryCancelPendingGo t rest
      (a :: r.1, r.2)

/-- LoopContext::tryCancelPending. -/
def LoopContext.tryCancelPending (t : Nat) (s : LoopContext) : LoopContext × Bool :=
  let r := tryCancelPendingGo t s.pendingActions
  ({ s with pendingActions := r.1 }, r.2)

/-- LoopContext::cancelAllQueued: mark every queued entry cancelled in place. -/
def LoopContext.cancelAllQueued (s : LoopContext) : LoopContext :=
  { s with queuedActions := s.queuedActions.map (fun a => { a with isCancelled := true }) }

/-- LoopContext::cancelAllPending: destroy every pending entry and clear the
sequence. -/
def LoopContext.cancelAllPending (s : LoopContext) : LoopContext :=
  { s with pendingActions := [] }

/-- LoopContext::scheduleImpl: issue the next ticket, build the record with
the cancelled flag false and the given trigger time, append it to pending,
and return the ticket. -/
def LoopContext.scheduleImpl (body : Nat → Bool × Bool) (triggerTime : Timepoint)
    (interval : Nat) (catchUp : Bool) (s : LoopContext) : LoopContext × Nat :=
  let t := s.ticketCounter + 1
  let a : ManagedAction :=
    { ticket := t, body := body, fired := 0, interval := interval,
      catchUp := catchUp, triggerTime := triggerTime, isCancelled := false }
  ({ s with ticketCounter := t, pendingActions := s.pendingActions ++ [a] }, t)

/-- Looper::cancel, acting on the registry it owns: try the queued sequence
first (no lock), and only if that found nothing, the pending sequence under
the lock.  (The thread-affinity assertion guards the call; it is not part of
the state transformation.) -/
def Looper.cancel (t : Nat) (s : LoopContext) : LoopContext × Bool :=
  let r := LoopContext.tryCancelQueued t s
  if r.2 then r else LoopContext.tryCancelPending t r.1

/-- Looper::cancelAll, acting on the registry: mark all queued cancelled,
then, under the lock, destroy and clear all pending. -/
def Looper.cancelAll (s : LoopContext) : LoopContext :=
  LoopContext.cancelAllPending (LoopContext.cancelAllQueued s)

/-- The loop-owning object: its registry and the mQuit flag. -/
structure Looper where
  context : LoopContext
  quitFlag : Bool

/-- Looper::quit: cancelAll, then set the terminal flag. -/
def Looper.quit (lp : Looper) : Looper :=
  { context := Looper.cancelAll lp.context, quitFlag := true }

/-- One cycle of Looper::run observed at clock value now: reconcile pending
into queued under the lock, then execute the due queued actions outside the
lock; a quit signalled by a body sets the terminal flag. -/
def Looper.cycle (now : Nat) (lp : Looper) : Looper × List Nat :=
  let s1 := (LoopContext.queuePending lp.context).1
  let r := LoopContext.runQueued now s1
  ({ context := r.1, quitFlag := lp.quitFlag || r.2.2 }, r.2.1)

/-- The cycles Looper::run still performs, driven by the successive clock
values at which the loop wakes: the loop runs another cycle only while the
terminal flag is unset, and stops as soon as it is set. -/
def Looper.cycles : List Nat → Looper → Looper × List Nat
  | [], lp => (lp, [])
  | now :: rest, lp =>
    if lp.quitFlag then (lp, [])
    else
      let r := Looper.cycle now lp
      let r2 := Looper.cycles rest r.1
      (r2.1, r.2 ++ r2.2)

/-- The operations that drive a registry from outside an execution pass:
scheduling (LoopContext::scheduleImpl), reconciliation
(LoopContext::queuePending, as performed under the lock at the top of a
cycle), an execution pass (LoopContext::runQueued at a clock value),
Looper::cancel and Looper::cancelAll. -/
inductive Op where
  | schedule (body : Nat → Bool × Bool) (triggerTime : Timepoint) (interval : Nat) (catchUp : Bool)
  | flush
  | runq (now : Nat)
  | cancel (t : Nat)
  | cancelAll

/-- The state transformation of one operation, together with the tickets
whose bodies it invoked. -/
def execOp (op : Op) (s : LoopContext) : LoopContext × List Nat :=
  match op with
  | .schedule b tt i c => ((LoopContext.scheduleImpl b tt i c s).1, [])
  | .flush => ((LoopContext.queuePending s).1, [])
  | .runq now =>
    let r := LoopContext.runQueued now s
    (r.1, r.2.1)
  | .cancel t => ((Looper.cancel t s).1, [])
  | .cancelAll => (Looper.cancelAll s, [])

/-- Run a sequence of operations, accumulating the invocation log. -/
def execOps : List Op → LoopContext → LoopContext × List Nat
  | [], s => (s, [])
  | op :: ops, s =>
    let r := execOp op s
    let r2 := execOps ops r.1
    (r2.1, r.2 ++ r2.2)

/-- The outcome of dereferencing the sMainLooper pointer: a null pointer
dereference is undefined behaviour, marked nullDeref; a valid pointer yields
the Looper it points to. -/
inductive DerefOutcome where
  | nullDeref
  | ok (lp : Looper)

/-- The initial value of the static pointer sMainLooper: zero-initialized,
i.e. null, before any setMainLooper call. -/
def sMainLooperInit : Option Looper := none

/-- loo::mainLooper: return *sMainLooper, with no check that the pointer was
ever set.  Dereferencing the null initial pointer is undefined behaviour. -/
def mainLooper (sMainLooper : Option Looper) : DerefOutcome :=
  match sMainLooper with
  | none => DerefOutcome.nullDeref
  | some lp => DerefOutcome.ok lp

/-- loo::setMainLooper: point sMainLooper at the given loop. -/
def setMainLooper (lp : Looper) (_sMainLooper : Option Looper) : Option Looper :=
  some lp

/-- Look an action up by ticket (first match), as the cancellation scans do. -/
def findTicket (t : Nat) (l : List ManagedAction) : Option ManagedAction :=
  l.find? (fun a => a.ticket == t)

/-- Running a sequence of scheduleImpl calls on one registry, collecting the
returned tickets.  Each element of the list carries the arguments of one
call: body, trigger time, interval, catch-up flag. -/
def scheduleSeq : List ((Nat → Bool × Bool) × Timepoint × Nat × Bool) →
    LoopContext → LoopContext × List Nat
  | [], s => (s, [])
  | x :: xs, s =>
    let r := LoopContext.scheduleImpl x.1 x.2.1 x.2.2.1 x.2.2.2 s
    let r2 := scheduleSeq xs r.1
    (r2.1, r.2 :: r2.2)

/-- A body that never repeats and never quits (a once-action). -/
def onceBody : Nat → Bool × Bool := fun _ => (false, false)

/-- A body that always repeats and never quits. -/
def repeatBody : Nat → Bool × Bool := fun _ => (true, false)

/-- Ticket t is dead in state s: it does not exceed the counter (so no future
scheduleImpl can issue it again) and every record carrying it, in either
sequence, is cancelled. -/
def Dead (t : Nat) (s : LoopContext) : Prop :=
  t ≤ s.ticketCounter ∧
  ∀ a, a ∈ s.queuedActions ∨ a ∈ s.pendingActions → a.ticket = t → a.isCancelled = true

/-- The pending sequence holds no cancelled entry. -/
def PendingOK (s : LoopContext) : Prop :=
  ∀ a ∈ s.pendingActions, a.isCancelled = false

/-- All live tickets of the registry, queued before pending. -/
def tickets (s : LoopContext) : List Nat :=
  (s.queuedActions ++ s.pendingActions).map (fun a => a.ticket)

/-- The registry invariant, established by LoopContext.init and preserved by
every operation. -/
def Inv (s : LoopContext) : Prop :=
  PendingOK s ∧ (tickets s).Nodup ∧
  (∀ u ∈ tickets s, 100 < u ∧ u ≤ s.ticketCounter) ∧ 100 ≤ s.ticketCounter

/-- Every record carrying ticket t has a body that never asks to repeat. -/
def OnceTicket (t : Nat) (s : LoopContext) : Prop :=
  ∀ a, a ∈ s.queuedActions ∨ a ∈ s.pendingActions → a.ticket = t →
    ∀ k, (a.body k).1 = false

/-- No body in the registry ever requests loop termination. -/
def NoQuit (s : LoopContext) : Prop :=
  ∀ a, a ∈ s.queuedActions ∨ a ∈ s.pendingActions → ∀ k, (a.body k).2 = false

/-- A concrete once-action record: ticket 101, due at time 5. -/
def wAction : ManagedAction :=
  { ticket := 101, body := onceBody, fired := 0, interval := 0,
    catchUp := false, triggerTime := 5, isCancelled := false }

/-- A concrete registry holding wAction in the queued sequence. -/
def wQueued : LoopContext :=
  { ticketCounter := 101, queuedActions := [wAction], pendingActions := [] }

/-- A concrete registry holding wAction in the pending sequence. -/
def wPending : LoopContext :=
  { ticketCounter := 101, queuedActions := [], pendingActions := [wAction] }

/-- A concrete loop around wQueued. -/
def wLooper : Looper :=
  { context := wQueued, quitFlag := false }

/-- An operation trace: schedule action 101 (trigger 10), reconcile, run a
pass at time 5 (101 not yet due, merely skipped), schedule action 102
(trigger 10), reconcile again, run a pass at time 10 where both are due. -/
def c6ops : List Op :=
  [Op.schedule repeatBody 10 0 true, Op.flush, Op.runq 5,
   Op.schedule repeatBody 10 0 true, Op.flush, Op.runq 10]

/-
Basic facts about fireAction and runQueuedGo.
-/

theorem fireAction_ticket (now : Nat) (a : ManagedAction) :
    (fireAction now a).1.ticket = a.ticket := by
  simp only [fireAction]
  split <;> rfl

theorem fireAction_body (now : Nat) (a : ManagedAction) :
    (fireAction now a).1.body = a.body := by
  simp only [fireAction]
  split <;> rfl

theorem fireAction_quit (now : Nat) (a : ManagedAction) :
    (fireAction now a).2.2 = (a.body a.fired).2 := by
  simp only [fireAction]
  split <;> rfl

theorem fireAction_rep (now : Nat) (a : ManagedAction) :
    (fireAction now a).2.1 = (a.body a.fired).1 := by
  simp only [fireAction]
  split <;> rfl

theorem fireAction_cancel_of_rep_false (now : Nat) (a : ManagedAction)
    (h : (a.body a.fired).1 = false) : (fireAction now a).1.isCancelled = true := by
  simp only [fireAction, h]
  rfl

theorem runQueuedGo_tickets (now : Nat) (l : List ManagedAction) :
    (runQueuedGo now l).1.map (fun a => a.ticket) = l.map (fun a => a.ticket) := by
  induction l with
  | nil => rfl
  | cons a rest ih =>
    simp only [runQueuedGo]
    split
    · simpa using ih
    · split
      · split
        · simp [fireAction_ticket]
        · simpa [fireAction_ticket] using ih
      · simpa using ih

theorem mem_log_runQueuedGo {now t : Nat} {l : List ManagedAction}
    (h : t ∈ (runQueuedGo now l).2.1) :
    ∃ a, a ∈ l ∧ a.ticket = t ∧ a.isCancelled = false ∧ a.triggerTime ≤ now := by
  induction l with
  | nil => simp [runQueuedGo] at h
  | cons a rest ih =>
    simp only [runQueuedGo] at h
    split at h
    · obtain ⟨b, hb, h2⟩ := ih h
      exact ⟨b, List.mem_cons_of_mem _ hb, h2⟩
    next hc =>
      split at h
      next hdue =>
        split at h
        · simp only [List.mem_singleton] at h
          exact ⟨a, List.mem_cons_self a rest, h.symm,
            (Bool.not_eq_true _).mp hc, hdue⟩
        · rcases List.mem_cons.mp h with h | h
          · exact ⟨a, List.mem_cons_self a rest, h.symm,
              (Bool.not_eq_true _).mp hc, hdue⟩
          · obtain ⟨b, hb, h2⟩ := ih h
            exact ⟨b, List.mem_cons_of_mem _ hb, h2⟩
      · obtain ⟨b, hb, h2⟩ := ih h
        exact ⟨b, List.mem_cons_of_mem _ hb, h2⟩

theorem runQueuedGo_log_sublist (now : Nat) (l : List ManagedAction) :
    List.Sublist (runQueuedGo now l).2.1 (l.map (fun a => a.ticket)) := by
  induction l with
  | nil => simp [runQueuedGo]
  | cons a rest ih =>
    simp only [runQueuedGo, List.map_cons]
    split
    · exact List.Sublist.cons _ ih
    · split
      · split
        · exact (List.nil_sublist _).cons₂ _
        · exact ih.cons₂ _
      · exact List.Sublist.cons _ ih

theorem runQueuedGo_dead_pres {now t : Nat} {l : List ManagedAction}
    (h : ∀ a ∈ l, a.ticket = t → a.isCancelled = true) :
    ∀ a ∈ (runQueuedGo now l).1, a.ticket = t → a.isCancelled = true := by
  induction l with
  | nil => simp [runQueuedGo]
  | cons a rest ih =>
    have htail := fun b hb => h b (List.mem_cons_of_mem _ hb)
    have hhead := h a (List.mem_cons_self a rest)
    simp only [runQueuedGo]
    split
    next hc =>
      intro b hb
      rcases List.mem_cons.mp hb with rfl | hb
      · exact hhead
      · exact ih htail b hb
    next hc =>
      split
      next hdue =>
        split
        · intro b hb
          rcases List.mem_cons.mp hb with rfl | hb
          · rw [fireAction_ticket]
            intro hbt
            exact absurd (hhead hbt) hc
          · exact htail b hb
        · intro b hb
          rcases List.mem_cons.mp hb with rfl | hb
          · rw [fireAction_ticket]
            intro hbt
            exact absurd (hhead hbt) hc
          · exact ih htail b hb
      · intro b hb
        rcases List.mem_cons.mp hb with rfl | hb
        · exact hhead
        · exact ih htail b hb

theorem runQueuedGo_dead_log {now t : Nat} {l : List ManagedAction}
    (h : ∀ a ∈ l, a.ticket = t → a.isCancelled = true) :
    t ∉ (runQueuedGo now l).2.1 := by
  intro hmem
  obtain ⟨a, ha, hat, hnc, _⟩ := mem_log_runQueuedGo hmem
  rw [h a ha hat] at hnc
  cases hnc

theorem runQueuedGo_skip {now : Nat} {l : List ManagedAction} {a : ManagedAction}
    (ha : a ∈ l) (hnc : a.isCancelled = false) (hdue : now < a.triggerTime) :
    a ∈ (runQueuedGo now l).1 := by
  induction l with
  | nil => cases ha
  | cons b rest ih =>
    simp only [runQueuedGo]
    rcases List.mem_cons.mp ha with rfl | hmem
    · have h1 : ¬(a.isCancelled = true) := by simp [hnc]
      have h2 : ¬(a.triggerTime ≤ now) := not_le.mpr hdue
      simp only [h1, if_false, h2]
      exact List.mem_cons_self _ _
    · split
      · exact List.mem_cons_of_mem _ (ih hmem)
      · split
        · split
          · exact List.mem_cons_of_mem _ hmem
          · exact List.mem_cons_of_mem _ (ih hmem)
        · exact List.mem_cons_of_mem _ (ih hmem)

theorem runQueuedGo_fires {now : Nat} {l : List ManagedAction} {a : ManagedAction}
    (hq : ∀ b ∈ l, ∀ k, (b.body k).2 = false)
    (ha : a ∈ l) (hnc : a.isCancelled = false) (hdue : a.triggerTime ≤ now) :
    a.ticket ∈ (runQueuedGo now l).2.1 := by
  induction l with
  | nil => cases ha
  | cons b rest ih =>
    have hqtail := fun c hc => hq c (List.mem_cons_of_mem _ hc)
    simp only [runQueuedGo]
    rcases List.mem_cons.mp ha with rfl | hmem
    · have h1 : ¬(a.isCancelled = true) := by simp [hnc]
      have hfq : (fireAction now a).2.2 = false := by
        rw [fireAction_quit]
        exact hq a (List.mem_cons_self a rest) a.fired
      rw [if_neg h1, if_pos hdue, if_neg (by simp [hfq])]
      exact List.mem_cons_self _ _
    · split
      · exact ih hqtail hmem
      · split
        · have hfq : (fireAction now b).2.2 = false := by
            rw [fireAction_quit]
            exact hq b (List.mem_cons_self b rest) b.fired
          rw [if_neg (by simp [hfq])]
          exact List.mem_cons_of_mem _ (ih hqtail hmem)
        · exact ih hqtail hmem

theorem runQueuedGo_provenance {now : Nat} {l : List ManagedAction} :
    ∀ b ∈ (runQueuedGo now l).1, ∃ a ∈ l, b.ticket = a.ticket ∧ b.body = a.body := by
  induction l with
  | nil => simp [runQueuedGo]
  | cons a rest ih =>
    simp only [runQueuedGo]
    split
    · intro b hb
      rcases List.mem_cons.mp hb with rfl | hb
      · exact ⟨b, List.mem_cons_self _ _, rfl, rfl⟩
      · obtain ⟨c, hc, h2⟩ := ih b hb
        exact ⟨c, List.mem_cons_of_mem _ hc, h2⟩
    · split
      · split
        · intro b hb
          rcases List.mem_cons.mp hb with rfl | hb
          · exact ⟨a, List.mem_cons_self _ _, fireAction_ticket now a, fireAction_body now a⟩
          · exact ⟨b, List.mem_cons_of_mem _ hb, rfl, rfl⟩
        · intro b hb
          rcases List.mem_cons.mp hb with rfl | hb
          · exact ⟨a, List.mem_cons_self _ _, fireAction_ticket now a, fireAction_body now a⟩
          · obtain ⟨c, hc, h2⟩ := ih b hb
            exact ⟨c, List.mem_cons_of_mem _ hc, h2⟩
      · intro b hb
        rcases List.mem_cons.mp hb with rfl | hb
        · exact ⟨b, List.mem_cons_self _ _, rfl, rfl⟩
        · obtain ⟨c, hc, h2⟩ := ih b hb
          exact ⟨c, List.mem_cons_of_mem _ hc, h2⟩

theorem runQueuedGo_all_cancelled {now : Nat} {l : List ManagedAction}
    (h : ∀ a ∈ l, a.isCancelled = true) : (runQueuedGo now l).2.1 = [] := by
  induction l with
  | nil => rfl
  | cons a rest ih =>
    simp only [runQueuedGo]
    rw [if_pos (h a (List.mem_cons_self a rest))]
    exact ih fun b hb => h b (List.mem_cons_of_mem _ hb)

/-
Facts about the cancellation scans.
-/

theorem tcq_tickets (t : Nat) (l : List ManagedAction) :
    (tryCancelQueuedGo t l).1.map (fun a => a.ticket) = l.map (fun a => a.ticket) := by
  induction l with
  | nil => rfl
  | cons a rest ih =>
    simp only [tryCancelQueuedGo]
    split
    · split <;> rfl
    · simpa using ih

theorem tcq_false {t : Nat} {l : List ManagedAction}
    (h : (tryCancelQueuedGo t l).2 = false) : (tryCancelQueuedGo t l).1 = l := by
  induction l with
  | nil => rfl
  | cons a rest ih =>
    simp only [tryCancelQueuedGo] at h ⊢
    split at h
    · split at h
      · split
        · rfl
        · simp_all
      · cases h
    next hne =>
      rw [if_neg hne]
      simp only at h
      rw [ih h]

theorem tcq_true_exists {t : Nat} {l : List ManagedAction}
    (h : (tryCancelQueuedGo t l).2 = true) :
    ∃ a ∈ l, a.ticket = t ∧ a.isCancelled = false := by
  induction l with
  | nil => cases h
  | cons a rest ih =>
    simp only [tryCancelQueuedGo] at h
    split at h
    next heq =>
      split at h
      · cases h
      next hnc =>
        exact ⟨a, List.mem_cons_self a rest, heq, (Bool.not_eq_true _).mp hnc⟩
    · obtain ⟨b, hb, h2⟩ := ih h
      exact ⟨b, List.mem_cons_of_mem _ hb, h2⟩

theorem tcq_exists_true {t : Nat} {l : List ManagedAction}
    (hnd : (l.map (fun a => a.ticket)).Nodup)
    (a : ManagedAction) (ha : a ∈ l) (hat : a.ticket = t) (hnc : a.isCancelled = false) :
    (tryCancelQueuedGo t l).2 = true := by
  induction l with
  | nil => cases ha
  | cons b rest ih =>
    simp only [List.map_cons, List.nodup_cons] at hnd
    simp only [tryCancelQueuedGo]
    rcases List.mem_cons.mp ha with rfl | hmem
    · rw [if_pos hat, if_neg (by simp [hnc])]
    · split
      next heq =>
        exfalso
        apply hnd.1
        rw [heq, ← hat]
        exact List.mem_map_of_mem _ hmem
      · exact ih hnd.2 hmem

theorem tcq_true_dead {t : Nat} {l : List ManagedAction}
    (hnd : (l.map (fun a => a.ticket)).Nodup)
    (h : (tryCancelQueuedGo t l).2 = true) :
    ∀ a ∈ (tryCancelQueuedGo t l).1, a.ticket = t → a.isCancelled = true := by
  induction l with
  | nil => cases h
  | cons b rest ih =>
    simp only [List.map_cons, List.nodup_cons] at hnd
    simp only [tryCancelQueuedGo] at h ⊢
    split at h
    next heq =>
      split at h
      · cases h
      next hnc =>
        rw [if_pos heq, if_neg hnc]
        intro a ha hat
        have ha2 : a ∈ ({ b with isCancelled := true } : ManagedAction) :: rest := ha
        rcases List.mem_cons.mp ha2 with rfl | hmem
        · rfl
        · exfalso
          apply hnd.1
          rw [heq, ← hat]
          exact List.mem_map_of_mem _ hmem
    next hne =>
      rw [if_neg hne]
      intro a ha hat
      have ha2 : a ∈ b :: (tryCancelQueuedGo t rest).1 := ha
      rcases List.mem_cons.mp ha2 with rfl | hmem
      · exact absurd hat hne
      · exact ih hnd.2 h a hmem hat

theorem tcq_cancelled_mono {t u : Nat} {l : List ManagedAction}
    (h : ∀ a ∈ l, a.ticket = u → a.isCancelled = true) :
    ∀ a ∈ (tryCancelQueuedGo t l).1, a.ticket = u → a.isCancelled = true := by
  induction l with
  | nil => simp [tryCancelQueuedGo]
  | cons b rest ih =>
    have htail := fun c hc => h c (List.mem_cons_of_mem _ hc)
    intro a ha hau
    simp only [tryCancelQueuedGo] at ha
    split at ha
    · split at ha
      · exact h a ha hau
      · have ha2 : a ∈ ({ b with isCancelled := true } : ManagedAction) :: rest := ha
        rcases List.mem_cons.mp ha2 with rfl | hmem
        · rfl
        · exact htail a hmem hau
    · have ha2 : a ∈ b :: (tryCancelQueuedGo t rest).1 := ha
      rcases List.mem_cons.mp ha2 with rfl | hmem
      · exact h _ (List.mem_cons_self _ _) hau
      · exact ih htail a hmem hau

theorem tcp_sublist (t : Nat) (l : List ManagedAction) :
    List.Sublist (tryCancelPendingGo t l).1 l := by
  induction l with
  | nil => simp [tryCancelPendingGo]
  | cons a rest ih =>
    simp only [tryCancelPendingGo]
    split
    · exact List.Sublist.cons _ (List.Sublist.refl rest)
    · exact ih.cons₂ _

theorem tcp_false {t : Nat} {l : List ManagedAction}
    (h : (tryCancelPendingGo t l).2 = false) :
    (tryCancelPendingGo t l).1 = l ∧ ∀ a ∈ l, a.ticket ≠ t := by
  induction l with
  | nil => exact ⟨rfl, by simp⟩
  | cons a rest ih =>
    simp only [tryCancelPendingGo] at h ⊢
    split at h
    · cases h
    next hne =>
      simp only at h
      obtain ⟨h1, h2⟩ := ih h
      rw [if_neg hne]
      refine ⟨by rw [h1], ?_⟩
      intro b hb
      rcases List.mem_cons.mp hb with rfl | hmem
      · exact hne
      · exact h2 b hmem

theorem tcp_true_exists {t : Nat} {l : List ManagedAction}
    (h : (tryCancelPendingGo t l).2 = true) :
    ∃ a ∈ l, a.ticket = t := by
  induction l with
  | nil => cases h
  | cons a rest ih =>
    simp only [tryCancelPendingGo] at h
    split at h
    next heq => exact ⟨a, List.mem_cons_self a rest, heq⟩
    · obtain ⟨b, hb, h2⟩ := ih h
      exact ⟨b, List.mem_cons_of_mem _ hb, h2⟩

theorem tcp_exists_true {t : Nat} {l : List ManagedAction}
    (a : ManagedAction) (ha : a ∈ l) (hat : a.ticket = t) :
    (tryCancelPendingGo t l).2 = true := by
  induction l with
  | nil => cases ha
  | cons b rest ih =>
    simp only [tryCancelPendingGo]
    rcases List.mem_cons.mp ha with rfl | hmem
    · rw [if_pos hat]
    · split
      · rfl
      · exact ih hmem

theorem tcp_true_no_ticket {t : Nat} {l : List ManagedAction}
    (hnd : (l.map (fun a => a.ticket)).Nodup)
    (h : (tryCancelPendingGo t l).2 = true) :
    ∀ a ∈ (tryCancelPendingGo t l).1, a.ticket ≠ t := by
  induction l with
  | nil => cases h
  | cons b rest ih =>
    simp only [List.map_cons, List.nodup_cons] at hnd
    simp only [tryCancelPendingGo] at h ⊢
    split at h
    next heq =>
      rw [if_pos heq]
      intro a ha hat
      apply hnd.1
      rw [heq, ← hat]
      exact List.mem_map_of_mem _ ha
    next hne =>
      rw [if_neg hne]
      intro a ha
      rcases List.mem_cons.mp ha with rfl | hmem
      · exact hne
      · exact ih hnd.2 h a hmem

/-
The key safety notion for cancellation: once every record carrying a ticket is
cancelled (and the ticket is not above the counter, so it can never be
reissued), the ticket is dead.  Dead tickets stay dead under every operation
and their bodies are never invoked again.
-/

theorem cancel_counter (u : Nat) (s : LoopContext) :
    (Looper.cancel u s).1.ticketCounter = s.ticketCounter := by
  simp only [Looper.cancel, LoopContext.tryCancelQueued, LoopContext.tryCancelPending]
  split <;> rfl

theorem Dead_execOp {t : Nat} {s : LoopContext} (op : Op) (hd : Dead t s) :
    Dead t (execOp op s).1 ∧ t ∉ (execOp op s).2 := by
  obtain ⟨hle, hall⟩ := hd
  cases op with
  | schedule b tt i c =>
    refine ⟨⟨Nat.le_succ_of_le hle, ?_⟩, by simp [execOp]⟩
    intro a ha hat
    simp only [execOp, LoopContext.scheduleImpl, List.mem_append, List.mem_singleton] at ha
    rcases ha with ha | ha | rfl
    · exact hall a (Or.inl ha) hat
    · exact hall a (Or.inr ha) hat
    · exact absurd hat (by simp; omega)
  | flush =>
    refine ⟨⟨hle, ?_⟩, by simp [execOp]⟩
    intro a ha hat
    simp only [execOp, LoopContext.queuePending, List.mem_append, List.not_mem_nil,
      or_false, List.mem_filter] at ha
    rcases ha with ha | ⟨ha, _⟩
    · exact hall a (Or.inr ha) hat
    · exact hall a (Or.inl ha) hat
  | runq now =>
    constructor
    · refine ⟨hle, ?_⟩
      intro a ha hat
      simp only [execOp, LoopContext.runQueued] at ha
      rcases ha with ha | ha
      · exact runQueuedGo_dead_pres (fun b hb => hall b (Or.inl hb)) a ha hat
      · exact hall a (Or.inr ha) hat
    · simp only [execOp, LoopContext.runQueued]
      exact runQueuedGo_dead_log fun b hb => hall b (Or.inl hb)
  | cancel u =>
    refine ⟨⟨by rw [show (execOp (Op.cancel u) s).1 = (Looper.cancel u s).1 from rfl,
      cancel_counter]; exact hle, ?_⟩, by simp [execOp, Looper.cancel]⟩
    intro a ha hat
    simp only [execOp, Looper.cancel, LoopContext.tryCancelQueued,
      LoopContext.tryCancelPending] at ha
    split at ha
    · simp only at ha
      rcases ha with ha | ha
      · exact tcq_cancelled_mono (fun b hb => hall b (Or.inl hb)) a ha hat
      · exact hall a (Or.inr ha) hat
    · simp only at ha
      rcases ha with ha | ha
      · exact tcq_cancelled_mono (fun b hb => hall b (Or.inl hb)) a ha hat
      · exact hall a (Or.inr ((tcp_sublist u s.pendingActions).mem ha)) hat
  | cancelAll =>
    refine ⟨⟨hle, ?_⟩, by simp [execOp]⟩
    intro a ha hat
    simp only [execOp, Looper.cancelAll, LoopContext.cancelAllPending,
      LoopContext.cancelAllQueued, List.not_mem_nil, or_false, List.mem_map] at ha
    obtain ⟨b, _, rfl⟩ := ha
    rfl

theorem Dead_execOps {t : Nat} {s : LoopContext} (ops : List Op) (hd : Dead t s) :
    Dead t (execOps ops s).1 ∧ t ∉ (execOps ops s).2 := by
  induction ops generalizing s with
  | nil => exact ⟨hd, by simp [execOps]⟩
  | cons op ops ih =>
    obtain ⟨hd1, hlog1⟩ := Dead_execOp op hd
    obtain ⟨hd2, hlog2⟩ := ih hd1
    refine ⟨hd2, ?_⟩
    simp only [execOps, List.mem_append]
    rintro (h | h)
    · exact hlog1 h
    · exact hlog2 h

/-
The registry invariant: pending entries are never cancelled, tickets are
pairwise distinct across the two sequences, and every live ticket lies in the
interval (100, ticketCounter].
-/

theorem tickets_eq (s : LoopContext) :
    tickets s = s.queuedActions.map (fun a => a.ticket)
      ++ s.pendingActions.map (fun a => a.ticket) := by
  simp [tickets]

theorem Inv_queued_nodup {s : LoopContext} (h : Inv s) :
    (s.queuedActions.map (fun a => a.ticket)).Nodup := by
  have := h.2.1
  rw [tickets_eq, List.nodup_append] at this
  exact this.1

theorem Inv_disjoint {s : LoopContext} (h : Inv s) {t : Nat}
    (hq : t ∈ s.queuedActions.map (fun a => a.ticket)) :
    t ∉ s.pendingActions.map (fun a => a.ticket) := by
  have := h.2.1
  rw [tickets_eq, List.nodup_append] at this
  exact this.2.2 hq

theorem execOp_counter (op : Op) (s : LoopContext) :
    s.ticketCounter ≤ (execOp op s).1.ticketCounter := by
  cases op with
  | schedule b tt i c => exact Nat.le_succ _
  | flush => exact le_refl _
  | runq now => exact le_refl _
  | cancel u =>
    rw [show (execOp (Op.cancel u) s).1 = (Looper.cancel u s).1 from rfl, cancel_counter]
  | cancelAll => exact le_refl _

theorem PendingOK_execOp {s : LoopContext} (op : Op) (h : PendingOK s) :
    PendingOK (execOp op s).1 := by
  cases op with
  | schedule b tt i c =>
    intro a ha
    simp only [execOp, LoopContext.scheduleImpl, List.mem_append,
      List.mem_singleton] at ha
    rcases ha with ha | rfl
    · exact h a ha
    · rfl
  | flush => intro a ha; simp [execOp, LoopContext.queuePending] at ha
  | runq now => exact h
  | cancel u =>
    intro a ha
    simp only [execOp, Looper.cancel, LoopContext.tryCancelQueued,
      LoopContext.tryCancelPending] at ha
    split at ha
    · exact h a ha
    · exact h a ((tcp_sublist u s.pendingActions).mem ha)
  | cancelAll => intro a ha; simp [execOp, Looper.cancelAll, LoopContext.cancelAllPending] at ha

theorem tickets_execOp (op : Op) (s : LoopContext) :
    ∃ l2, List.Perm (tickets s) l2 ∧
      (match op with
       | Op.schedule _ _ _ _ => List.Sublist (tickets (execOp op s).1) (l2 ++ [s.ticketCounter + 1])
       | _ => List.Sublist (tickets (execOp op s).1) l2) := by
  cases op with
  | schedule b tt i c =>
    refine ⟨tickets s, List.Perm.refl _, ?_⟩
    simp only [execOp, LoopContext.scheduleImpl, tickets_eq, List.map_append,
      List.map_cons, List.map_nil]
    rw [← List.append_assoc, ← List.map_append]
  | flush =>
    refine ⟨s.pendingActions.map (fun a => a.ticket)
        ++ s.queuedActions.map (fun a => a.ticket), ?_, ?_⟩
    · rw [tickets_eq]; exact List.perm_append_comm
    · simp only [execOp, LoopContext.queuePending, tickets_eq, List.map_nil,
        List.append_nil, List.map_append]
      exact List.Sublist.append_left (((List.filter_sublist _)).map _) _
  | runq now =>
    refine ⟨tickets s, List.Perm.refl _, ?_⟩
    simp only [execOp, LoopContext.runQueued, tickets_eq, List.map_append]
    rw [runQueuedGo_tickets]
  | cancel u =>
    refine ⟨tickets s, List.Perm.refl _, ?_⟩
    simp only [execOp, Looper.cancel, LoopContext.tryCancelQueued,
      LoopContext.tryCancelPending]
    split
    · simp only [tickets_eq, List.map_append]
      rw [tcq_tickets]
    · simp only [tickets_eq, List.map_append]
      rw [tcq_tickets]
      exact List.Sublist.append_left ((tcp_sublist u _).map _) _
  | cancelAll =>
    refine ⟨tickets s, List.Perm.refl _, ?_⟩
    simp only [execOp, Looper.cancelAll, LoopContext.cancelAllPending,
      LoopContext.cancelAllQueued, tickets_eq, List.map_nil, List.append_nil,
      List.map_map]
    have : ((fun a : ManagedAction => a.ticket) ∘ fun a => { a with isCancelled := true })
        = fun a : ManagedAction => a.ticket := rfl
    rw [this]
    exact List.sublist_append_left _ _

theorem Inv_execOp {s : LoopContext} (op : Op) (h : Inv s) : Inv (execOp op s).1 := by
  obtain ⟨hp, hnd, hbound, hc⟩ := h
  obtain ⟨l2, hperm, hsub⟩ := tickets_execOp op s
  have hl2 : l2.Nodup := hperm.nodup hnd
  have hl2mem : ∀ u ∈ l2, 100 < u ∧ u ≤ s.ticketCounter := fun u hu =>
    hbound u (hperm.mem_iff.mpr hu)
  refine ⟨PendingOK_execOp op hp, ?_, ?_, le_trans hc (execOp_counter op s)⟩
  · cases op with
    | schedule b tt i c =>
      refine List.Nodup.sublist hsub ?_
      rw [List.nodup_append]
      refine ⟨hl2, List.nodup_singleton _, ?_⟩
      intro u hu hu2
      simp only [List.mem_singleton] at hu2
      subst hu2
      exact absurd (hl2mem _ hu).2 (by omega)
    | flush => exact List.Nodup.sublist hsub hl2
    | runq now => exact List.Nodup.sublist hsub hl2
    | cancel u => exact List.Nodup.sublist hsub hl2
    | cancelAll => exact List.Nodup.sublist hsub hl2
  · cases op with
    | schedule b tt i c =>
      intro u hu
      have := hsub.mem hu
      simp only [List.mem_append, List.mem_singleton] at this
      rcases this with h2 | rfl
      · obtain ⟨h3, h4⟩ := hl2mem u h2
        exact ⟨h3, le_trans h4 (execOp_counter _ s)⟩
      · refine ⟨by omega, ?_⟩
        simp [execOp, LoopContext.scheduleImpl]
    | flush =>
      intro u hu
      obtain ⟨h3, h4⟩ := hl2mem u (hsub.mem hu)
      exact ⟨h3, le_trans h4 (execOp_counter _ s)⟩
    | runq now =>
      intro u hu
      obtain ⟨h3, h4⟩ := hl2mem u (hsub.mem hu)
      exact ⟨h3, le_trans h4 (execOp_counter _ s)⟩
    | cancel v =>
      intro u hu
      obtain ⟨h3, h4⟩ := hl2mem u (hsub.mem hu)
      exact ⟨h3, le_trans h4 (execOp_counter _ s)⟩
    | cancelAll =>
      intro u hu
      obtain ⟨h3, h4⟩ := hl2mem u (hsub.mem hu)
      exact ⟨h3, le_trans h4 (execOp_counter _ s)⟩

theorem Inv_init : Inv LoopContext.init := by
  refine ⟨?_, ?_, ?_, le_refl _⟩ <;> simp [PendingOK, tickets, LoopContext.init]

theorem Inv_pending_nodup {s : LoopContext} (h : Inv s) :
    (s.pendingActions.map (fun a => a.ticket)).Nodup := by
  have := h.2.1
  rw [tickets_eq, List.nodup_append] at this
  exact this.2.1

/-- Looper::cancel either finds its ticket in the queued scan (and leaves the
pending sequence alone) or falls through to the pending scan. -/
theorem cancel_cases (t : Nat) (s : LoopContext) :
    ((tryCancelQueuedGo t s.queuedActions).2 = true ∧
      Looper.cancel t s
        = ({ s with queuedActions := (tryCancelQueuedGo t s.queuedActions).1 }, true))
    ∨ ((tryCancelQueuedGo t s.queuedActions).2 = false ∧
      Looper.cancel t s
        = ({ s with pendingActions := (tryCancelPendingGo t s.pendingActions).1 },
           (tryCancelPendingGo t s.pendingActions).2)) := by
  by_cases h : (tryCancelQueuedGo t s.queuedActions).2 = true
  · left
    refine ⟨h, ?_⟩
    simp only [Looper.cancel, LoopContext.tryCancelQueued]
    rw [if_pos h, h]
  · right
    have hf : (tryCancelQueuedGo t s.queuedActions).2 = false := by
      cases hb : (tryCancelQueuedGo t s.queuedActions).2
      · rfl
      · exact absurd hb h
    refine ⟨hf, ?_⟩
    simp only [Looper.cancel, LoopContext.tryCancelQueued, LoopContext.tryCancelPending]
    rw [if_neg h, tcq_false hf]

/-- A successful Looper::cancel leaves its ticket dead: every record still
carrying it is cancelled, and it can never be issued again. -/
theorem cancel_dead {s : LoopContext} {t : Nat} (hInv : Inv s)
    (hc : (Looper.cancel t s).2 = true) : Dead t (Looper.cancel t s).1 := by
  rcases cancel_cases t s with ⟨hq, heq⟩ | ⟨hq, heq⟩
  · rw [heq]
    obtain ⟨a, ha, hat, _⟩ := tcq_true_exists hq
    have hqmem : t ∈ s.queuedActions.map (fun x => x.ticket) := by
      rw [← hat]
      exact List.mem_map_of_mem _ ha
    constructor
    · have hmem : t ∈ tickets s := by
        rw [tickets_eq]
        exact List.mem_append_left _ hqmem
      exact (hInv.2.2.1 t hmem).2
    · intro b hb hbt
      rcases hb with hb | hb
      · exact tcq_true_dead (Inv_queued_nodup hInv) hq b hb hbt
      · exact absurd (by rw [← hbt]; exact List.mem_map_of_mem _ hb)
          (Inv_disjoint hInv hqmem)
  · rw [heq] at hc ⊢
    obtain ⟨a, ha, hat⟩ := tcp_true_exists hc
    have hpmem : t ∈ s.pendingActions.map (fun x => x.ticket) := by
      rw [← hat]
      exact List.mem_map_of_mem _ ha
    constructor
    · have hmem : t ∈ tickets s := by
        rw [tickets_eq]
        exact List.mem_append_right _ hpmem
      exact (hInv.2.2.1 t hmem).2
    · intro b hb hbt
      rcases hb with hb | hb
      · exact absurd hpmem
          (Inv_disjoint hInv (by rw [← hbt]; exact List.mem_map_of_mem _ hb))
      · exact absurd hbt (tcp_true_no_ticket (Inv_pending_nodup hInv) hc b hb)

theorem tcq_provenance {t : Nat} {l : List ManagedAction} :
    ∀ b ∈ (tryCancelQueuedGo t l).1, ∃ a ∈ l, b.ticket = a.ticket ∧ b.body = a.body := by
  induction l with
  | nil => simp [tryCancelQueuedGo]
  | cons a rest ih =>
    intro b hb
    simp only [tryCancelQueuedGo] at hb
    split at hb
    · split at hb
      · exact ⟨b, hb, rfl, rfl⟩
      · have hb2 : b ∈ ({ a with isCancelled := true } : ManagedAction) :: rest := hb
        rcases List.mem_cons.mp hb2 with rfl | hmem
        · exact ⟨a, List.mem_cons_self _ _, rfl, rfl⟩
        · exact ⟨b, List.mem_cons_of_mem _ hmem, rfl, rfl⟩
    · have hb2 : b ∈ a :: (tryCancelQueuedGo t rest).1 := hb
      rcases List.mem_cons.mp hb2 with rfl | hmem
      · exact ⟨b, List.mem_cons_self _ _, rfl, rfl⟩
      · obtain ⟨c, hc, h2⟩ := ih b hmem
        exact ⟨c, List.mem_cons_of_mem _ hc, h2⟩

/-- Every record present after an operation either descends from a record
present before it, keeping ticket and body, or is a freshly scheduled record
whose ticket exceeds the previous counter. -/
theorem execOp_provenance (op : Op) (s : LoopContext) :
    ∀ b, b ∈ (execOp op s).1.queuedActions ∨ b ∈ (execOp op s).1.pendingActions →
      (∃ a, (a ∈ s.queuedActions ∨ a ∈ s.pendingActions) ∧
        b.ticket = a.ticket ∧ b.body = a.body)
      ∨ s.ticketCounter < b.ticket := by
  cases op with
  | schedule bd tt i c =>
    intro b hb
    simp only [execOp, LoopContext.scheduleImpl, List.mem_append,
      List.mem_singleton] at hb
    rcases hb with hb | hb | rfl
    · exact Or.inl ⟨b, Or.inl hb, rfl, rfl⟩
    · exact Or.inl ⟨b, Or.inr hb, rfl, rfl⟩
    · exact Or.inr (Nat.lt_succ_self _)
  | flush =>
    intro b hb
    simp only [execOp, LoopContext.queuePending, List.mem_append, List.not_mem_nil,
      or_false, List.mem_filter] at hb
    rcases hb with hb | ⟨hb, _⟩
    · exact Or.inl ⟨b, Or.inr hb, rfl, rfl⟩
    · exact Or.inl ⟨b, Or.inl hb, rfl, rfl⟩
  | runq now =>
    intro b hb
    simp only [execOp, LoopContext.runQueued] at hb
    rcases hb with hb | hb
    · obtain ⟨a, ha, h2⟩ := runQueuedGo_provenance b hb
      exact Or.inl ⟨a, Or.inl ha, h2⟩
    · exact Or.inl ⟨b, Or.inr hb, rfl, rfl⟩
  | cancel u =>
    intro b hb
    simp only [execOp] at hb
    rcases cancel_cases u s with ⟨_, heq⟩ | ⟨_, heq⟩ <;> rw [heq] at hb
    · rcases hb with hb | hb
      · obtain ⟨a, ha, h2⟩ := tcq_provenance b hb
        exact Or.inl ⟨a, Or.inl ha, h2⟩
      · exact Or.inl ⟨b, Or.inr hb, rfl, rfl⟩
    · rcases hb with hb | hb
      · exact Or.inl ⟨b, Or.inl hb, rfl, rfl⟩
      · exact Or.inl ⟨b, Or.inr ((tcp_sublist u _).mem hb), rfl, rfl⟩
  | cancelAll =>
    intro b hb
    simp only [execOp, Looper.cancelAll, LoopContext.cancelAllPending,
      LoopContext.cancelAllQueued, List.not_mem_nil, or_false, List.mem_map] at hb
    obtain ⟨a, ha, rfl⟩ := hb
    exact Or.inl ⟨a, Or.inl ha, rfl, rfl⟩

/-
Once-actions: actions whose body never asks to repeat.
-/

theorem OnceTicket_execOp {t : Nat} {s : LoopContext} (op : Op)
    (ht : t ≤ s.ticketCounter) (h : OnceTicket t s) : OnceTicket t (execOp op s).1 := by
  intro b hb hbt k
  rcases execOp_provenance op s b hb with ⟨a, ha, htk, hbd⟩ | hgt
  · rw [hbd]
    exact h a ha (htk.symm.trans hbt) k
  · omega

theorem NoQuit_flush {s : LoopContext} (h : NoQuit s) :
    NoQuit (LoopContext.queuePending s).1 := by
  intro b hb k
  simp only [LoopContext.queuePending, List.mem_append, List.not_mem_nil, or_false,
    List.mem_filter] at hb
  rcases hb with hb | ⟨hb, _⟩
  · exact h b (Or.inr hb) k
  · exact h b (Or.inl hb) k

/-- If a once-ticket fires during a pass, every record still carrying it
afterwards is cancelled. -/
theorem runQueuedGo_once_fired_dead {now t : Nat} {l : List ManagedAction}
    (hnd : (l.map (fun a => a.ticket)).Nodup)
    (honce : ∀ a ∈ l, a.ticket = t → ∀ k, (a.body k).1 = false)
    (hlog : t ∈ (runQueuedGo now l).2.1) :
    ∀ b ∈ (runQueuedGo now l).1, b.ticket = t → b.isCancelled = true := by
  induction l with
  | nil => simp [runQueuedGo] at hlog
  | cons a rest ih =>
    simp only [List.map_cons, List.nodup_cons] at hnd
    have honcetail := fun c hc => honce c (List.mem_cons_of_mem _ hc)
    simp only [runQueuedGo] at hlog ⊢
    split at hlog
    next hcanc =>
      rw [if_pos hcanc]
      intro b hb hbt
      have hb2 : b ∈ a :: (runQueuedGo now rest).1 := hb
      rcases List.mem_cons.mp hb2 with rfl | hmem
      · exact hcanc
      · exact ih hnd.2 honcetail hlog b hmem hbt
    next hcanc =>
      rw [if_neg hcanc]
      split at hlog
      next hdue =>
        rw [if_pos hdue]
        split at hlog
        next hquit =>
          rw [if_pos hquit]
          have ht : a.ticket = t := by
            have h2 : t = a.ticket := by simpa using hlog
            exact h2.symm
          intro b hb hbt
          have hb2 : b ∈ (fireAction now a).1 :: rest := hb
          rcases List.mem_cons.mp hb2 with rfl | hmem
          · exact fireAction_cancel_of_rep_false now a
              (honce a (List.mem_cons_self _ _) ht a.fired)
          · exact absurd (by rw [ht, ← hbt]; exact List.mem_map_of_mem _ hmem) hnd.1
        next hquit =>
          rw [if_neg hquit]
          intro b hb hbt
          have hb2 : b ∈ (fireAction now a).1 :: (runQueuedGo now rest).1 := hb
          by_cases hta : a.ticket = t
          · rcases List.mem_cons.mp hb2 with rfl | hmem
            · exact fireAction_cancel_of_rep_false now a
                (honce a (List.mem_cons_self _ _) hta a.fired)
            · exfalso
              apply hnd.1
              have hmem2 : b.ticket ∈ (runQueuedGo now rest).1.map (fun x => x.ticket) :=
                List.mem_map_of_mem _ hmem
              rw [runQueuedGo_tickets] at hmem2
              rw [hta, ← hbt]
              exact hmem2
          · have hlog2 : t ∈ (runQueuedGo now rest).2.1 := by
              have h3 : t ∈ a.ticket :: (runQueuedGo now rest).2.1 := hlog
              rcases List.mem_cons.mp h3 with h | h
              · exact absurd h.symm hta
              · exact h
            rcases List.mem_cons.mp hb2 with rfl | hmem
            · rw [fireAction_ticket] at hbt
              exact absurd hbt hta
            · exact ih hnd.2 honcetail hlog2 b hmem hbt
      next hdue =>
        rw [if_neg hdue]
        intro b hb hbt
        have hb2 : b ∈ a :: (runQueuedGo now rest).1 := hb
        rcases List.mem_cons.mp hb2 with rfl | hmem
        · exfalso
          obtain ⟨c, hc, hct, _⟩ := mem_log_runQueuedGo hlog
          apply hnd.1
          rw [hbt, ← hct]
          exact List.mem_map_of_mem _ hc
        · exact ih hnd.2 honcetail hlog b hmem hbt

/-- One pass invokes a given ticket at most once (tickets in the queued
sequence are distinct). -/
theorem runq_log_count {now t : Nat} {l : List ManagedAction}
    (hnd : (l.map (fun a => a.ticket)).Nodup) :
    (runQueuedGo now l).2.1.count t ≤ 1 := by
  exact le_trans ((runQueuedGo_log_sublist now l).count_le t)
    (List.nodup_iff_count_le_one.mp hnd t)

/-- After a pass in which a once-ticket fired, the ticket is dead: its record
got marked cancelled and no other record carries it. -/
theorem once_fired_dead_state {t now : Nat} {s : LoopContext}
    (hInv : Inv s) (ht : t ≤ s.ticketCounter) (honce : OnceTicket t s)
    (hlog : t ∈ (LoopContext.runQueued now s).2.1) :
    Dead t (LoopContext.runQueued now s).1 := by
  have hndq := Inv_queued_nodup hInv
  have hmem2 : t ∈ (runQueuedGo now s.queuedActions).2.1 := hlog
  refine ⟨ht, ?_⟩
  intro b hb hbt
  rcases hb with hb | hb
  · exact runQueuedGo_once_fired_dead hndq
      (fun a ha hat => honce a (Or.inl ha) hat) hmem2 b hb hbt
  · obtain ⟨c, hc, hct, _⟩ := mem_log_runQueuedGo hmem2
    have hqm : t ∈ s.queuedActions.map (fun x => x.ticket) := by
      rw [← hct]
      exact List.mem_map_of_mem _ hc
    have hpm : t ∈ s.pendingActions.map (fun x => x.ticket) := by
      rw [← hbt]
      exact List.mem_map_of_mem _ hb
    exact absurd hpm (Inv_disjoint hInv hqm)

/-- A once-ticket is invoked at most once over any sequence of operations. -/
theorem once_count {t : Nat} (ops : List Op) {s : LoopContext}
    (hInv : Inv s) (ht : t ≤ s.ticketCounter) (honce : OnceTicket t s) :
    (execOps ops s).2.count t ≤ 1 := by
  induction ops generalizing s with
  | nil => simp [execOps]
  | cons op ops ih =>
    simp only [execOps, List.count_append]
    have hInv1 := Inv_execOp op hInv
    have ht1 := le_trans ht (execOp_counter op s)
    have honce1 := OnceTicket_execOp op ht honce
    cases op with
    | runq now =>
      have hndq := Inv_queued_nodup hInv
      by_cases hmem : t ∈ (execOp (Op.runq now) s).2
      · have h1 : (execOp (Op.runq now) s).2.count t ≤ 1 := runq_log_count hndq
        have hmem2 : t ∈ (LoopContext.runQueued now s).2.1 := hmem
        have hdead : Dead t (execOp (Op.runq now) s).1 :=
          once_fired_dead_state hInv ht honce hmem2
        have h2 := (Dead_execOps ops hdead).2
        rw [List.count_eq_zero.mpr h2]
        omega
      · rw [List.count_eq_zero.mpr hmem]
        have := ih hInv1 ht1 honce1
        omega
    | schedule bd tt i c =>
      rw [show (execOp (Op.schedule bd tt i c) s).2 = [] from rfl]
      simpa using ih hInv1 ht1 honce1
    | flush =>
      rw [show (execOp Op.flush s).2 = [] from rfl]
      simpa using ih hInv1 ht1 honce1
    | cancel u =>
      rw [show (execOp (Op.cancel u) s).2 = [] from rfl]
      simpa using ih hInv1 ht1 honce1
    | cancelAll =>
      rw [show (execOp Op.cancelAll s).2 = [] from rfl]
      simpa using ih hInv1 ht1 honce1

/-- The wake-time fold of LoopContext::queuePending computes the minimum of
the trigger times, seeded with the running bound. -/
theorem wake_foldl (l : List ManagedAction) (w : WithTop Nat) :
    l.foldl (fun w a => if (a.triggerTime : WithTop Nat) < w
        then (a.triggerTime : WithTop Nat) else w) w
      = min w (l.map (fun a => a.triggerTime)).minimum := by
  induction l generalizing w with
  | nil =>
    rw [List.map_nil, List.minimum_nil, List.foldl_nil]
    exact (min_eq_left le_top).symm
  | cons a rest ih =>
    rw [List.foldl_cons, List.map_cons, List.minimum_cons, ih]
    have hstep : (if (a.triggerTime : WithTop Nat) < w
        then (a.triggerTime : WithTop Nat) else w)
        = min (a.triggerTime : WithTop Nat) w := by
      rcases lt_or_ge (a.triggerTime : WithTop Nat) w with h | h
      · rw [if_pos h, min_eq_left h.le]
      · rw [if_neg (not_lt.mpr h), min_eq_right h]
    rw [hstep, min_assoc, min_left_comm]
    rfl

/-- If a ticket was invoked during a pass, the record the pass left for it is
exactly the fireAction update of the record it found, and that record was due
and not cancelled. -/
theorem runQueuedGo_find {now t : Nat} {l : List ManagedAction} {a : ManagedAction}
    (hnd : (l.map (fun x => x.ticket)).Nodup)
    (hfind : findTicket t l = some a)
    (hlog : t ∈ (runQueuedGo now l).2.1) :
    a.isCancelled = false ∧ a.triggerTime ≤ now ∧
    findTicket t (runQueuedGo now l).1 = some (fireAction now a).1 := by
  induction l with
  | nil => simp [findTicket] at hfind
  | cons b rest ih =>
    simp only [List.map_cons, List.nodup_cons] at hnd
    simp only [runQueuedGo] at hlog ⊢
    by_cases hbt : b.ticket = t
    · have hfa : a = b := by
        unfold findTicket at hfind
        rw [List.find?_cons_of_pos _ (by simpa using hbt)] at hfind
        exact (Option.some_inj.mp hfind).symm
      subst hfa
      split at hlog
      next hcanc =>
        exfalso
        obtain ⟨c, hc, hct, _⟩ := mem_log_runQueuedGo hlog
        apply hnd.1
        rw [hbt, ← hct]
        exact List.mem_map_of_mem _ hc
      next hcanc =>
        split at hlog
        next hdue =>
          rw [if_neg hcanc, if_pos hdue]
          refine ⟨(Bool.not_eq_true _).mp hcanc, hdue, ?_⟩
          split at hlog
          next hquit =>
            rw [if_pos hquit]
            unfold findTicket
            rw [List.find?_cons_of_pos _ (by simp [fireAction_ticket, hbt])]
          next hquit =>
            rw [if_neg hquit]
            unfold findTicket
            rw [List.find?_cons_of_pos _ (by simp [fireAction_ticket, hbt])]
        next hdue =>
          exfalso
          obtain ⟨c, hc, hct, _⟩ := mem_log_runQueuedGo hlog
          apply hnd.1
          rw [hbt, ← hct]
          exact List.mem_map_of_mem _ hc
    · have hfr : findTicket t rest = some a := by
        unfold findTicket at hfind ⊢
        rwa [List.find?_cons_of_neg _ (by simpa using hbt)] at hfind
      split at hlog
      next hcanc =>
        rw [if_pos hcanc]
        obtain ⟨h1, h2, h3⟩ := ih hnd.2 hfr hlog
        refine ⟨h1, h2, ?_⟩
        unfold findTicket at h3 ⊢
        rw [List.find?_cons_of_neg _ (by simpa using hbt)]
        exact h3
      next hcanc =>
        rw [if_neg hcanc]
        split at hlog
        next hdue =>
          rw [if_pos hdue]
          split at hlog
          next hquit =>
            exfalso
            have h4 : t ∈ [b.ticket] := hlog
            simp only [List.mem_singleton] at h4
            exact hbt h4.symm
          next hquit =>
            rw [if_neg hquit]
            have hlog2 : t ∈ (runQueuedGo now rest).2.1 := by
              have h4 : t ∈ b.ticket :: (runQueuedGo now rest).2.1 := hlog
              rcases List.mem_cons.mp h4 with h4 | h4
              · exact absurd h4.symm hbt
              · exact h4
            obtain ⟨h1, h2, h3⟩ := ih hnd.2 hfr hlog2
            refine ⟨h1, h2, ?_⟩
            unfold findTicket at h3 ⊢
            rw [List.find?_cons_of_neg _ (by simp [fireAction_ticket, hbt])]
            exact h3
        next hdue =>
          rw [if_neg hdue]
          obtain ⟨h1, h2, h3⟩ := ih hnd.2 hfr hlog
          refine ⟨h1, h2, ?_⟩
          unfold findTicket at h3 ⊢
          rw [List.find?_cons_of_neg _ (by simpa using hbt)]
          exact h3

theorem scheduleSeq_gt (xs : List ((Nat → Bool × Bool) × Timepoint × Nat × Bool))
    (s : LoopContext) : ∀ u ∈ (scheduleSeq xs s).2, s.ticketCounter < u := by
  induction xs generalizing s with
  | nil => simp [scheduleSeq]
  | cons x xs ih =>
    intro u hu
    have hu2 : u ∈ (s.ticketCounter + 1)
        :: (scheduleSeq xs (LoopContext.scheduleImpl x.1 x.2.1 x.2.2.1 x.2.2.2 s).1).2 := hu
    rcases List.mem_cons.mp hu2 with rfl | hu3
    · exact Nat.lt_succ_self _
    · have h2 : s.ticketCounter + 1 < u := ih _ u hu3
      omega

theorem scheduleSeq_pairwise (xs : List ((Nat → Bool × Bool) × Timepoint × Nat × Bool))
    (s : LoopContext) : List.Pairwise (· < ·) (scheduleSeq xs s).2 := by
  induction xs generalizing s with
  | nil => simp [scheduleSeq]
  | cons x xs ih =>
    simp only [scheduleSeq, List.pairwise_cons]
    refine ⟨?_, ih _⟩
    intro u hu
    exact scheduleSeq_gt _ _ u hu

/-
The claims.
-/

/-- Claim C1: when Looper::cancel returns true for ticket t, the body of the
action identified by t is never invoked by any subsequent sequence of
operations: a queued match was marked cancelled and is skipped by every later
pass, a pending match was destroyed before it could be moved into queued, and
the ticket counter guarantees t is never reissued. -/
theorem cancel_true_never_fired_again (s : LoopContext) (t : Nat) (ops : List Op)
    (hInv : Inv s) (hc : (Looper.cancel t s).2 = true) :
    t ∉ (execOps ops (Looper.cancel t s).1).2 :=
  (Dead_execOps ops (cancel_dead hInv hc)).2

/-- Witness for C1: cancelling the queued once-action 101 and then reconciling
and running a pass at time 100 never invokes 101. -/
theorem cancel_true_never_fired_again_w :
    101 ∉ (execOps [Op.flush, Op.runq 100] (Looper.cancel 101 wQueued).1).2 :=
  cancel_true_never_fired_again wQueued 101 [Op.flush, Op.runq 100]
    ⟨by intro a ha; simp [wQueued] at ha,
     by simp [tickets, wQueued, wAction],
     by decide,
     by simp [wQueued]⟩
    (by decide)

/-- Claim C2: on a registry whose pending entries are not cancelled (the
invariant of claim C10), LoopContext::queuePending moves every pending entry
into queued, destroys every cancelled entry, leaves pending empty, is
idempotent, and returns the minimum trigger time over the resulting queued
sequence, Timepoint.max (the top element) when it is empty. -/
theorem queuePending_spec (s : LoopContext)
    (hp : ∀ a ∈ s.pendingActions, a.isCancelled = false) :
    (LoopContext.queuePending s).1.queuedActions
        = s.pendingActions ++ s.queuedActions.filter (fun a => !a.isCancelled) ∧
    (LoopContext.queuePending s).1.pendingActions = [] ∧
    (∀ a ∈ s.pendingActions, a ∈ (LoopContext.queuePending s).1.queuedActions) ∧
    (∀ a ∈ s.queuedActions, a.isCancelled = true →
        a ∉ (LoopContext.queuePending s).1.queuedActions) ∧
    LoopContext.queuePending (LoopContext.queuePending s).1 = LoopContext.queuePending s ∧
    (LoopContext.queuePending s).2
        = ((LoopContext.queuePending s).1.queuedActions.map (fun a => a.triggerTime)).minimum := by
  have hX : (s.pendingActions ++ s.queuedActions.filter (fun a => !a.isCancelled)).filter
      (fun a => !a.isCancelled)
      = s.pendingActions ++ s.queuedActions.filter (fun a => !a.isCancelled) := by
    rw [List.filter_eq_self]
    intro a ha
    rcases List.mem_append.mp ha with h | h
    · simp [hp a h]
    · exact List.of_mem_filter (p := fun x : ManagedAction => !x.isCancelled) h
  refine ⟨rfl, rfl, ?_, ?_, ?_, ?_⟩
  · intro a ha
    exact List.mem_append_left _ ha
  · intro a ha hca hmem
    rcases List.mem_append.mp hmem with h | h
    · rw [hp a h] at hca
      cases hca
    · have h2 : (!a.isCancelled) = true :=
        List.of_mem_filter (p := fun x : ManagedAction => !x.isCancelled) h
      rw [hca] at h2
      cases h2
  · simp only [LoopContext.queuePending, List.nil_append, hX]
  · rw [show (LoopContext.queuePending s).1.queuedActions
        = s.pendingActions ++ s.queuedActions.filter (fun a => !a.isCancelled) from rfl]
    rw [show (LoopContext.queuePending s).2
        = (s.pendingActions ++ s.queuedActions.filter (fun a => !a.isCancelled)).foldl
            (fun w a => if (a.triggerTime : WithTop Nat) < w
              then (a.triggerTime : WithTop Nat) else w) ⊤ from rfl]
    rw [wake_foldl]
    exact min_eq_right le_top

/-- Witness for C2: reconciling the registry with one pending action leaves
pending empty. -/
theorem queuePending_spec_w :
    (LoopContext.queuePending wPending).1.pendingActions = [] :=
  (queuePending_spec wPending
    (by intro a ha; simp only [wPending, List.mem_singleton] at ha; subst ha; rfl)).2.1

/-- Claim C3: when a pass at time now invokes the body of the due,
non-cancelled action found for ticket t, the record left for t is the
fireAction update: if the body answered true, the new trigger time is the old
trigger time plus the interval under the catch-up policy and now plus the
interval otherwise, and the record stays live; if it answered false, the
record is marked cancelled. -/
theorem runQueued_policy (s : LoopContext) (now t : Nat) (a : ManagedAction)
    (hnd : (s.queuedActions.map (fun x => x.ticket)).Nodup)
    (hfind : findTicket t s.queuedActions = some a)
    (hlog : t ∈ (LoopContext.runQueued now s).2.1) :
    a.isCancelled = false ∧ a.triggerTime ≤ now ∧
    findTicket t (LoopContext.runQueued now s).1.queuedActions
      = some (fireAction now a).1 ∧
    ((a.body a.fired).1 = true →
      (fireAction now a).1.isCancelled = false ∧
      (a.catchUp = true → (fireAction now a).1.triggerTime = a.triggerTime + a.interval) ∧
      (a.catchUp = false → (fireAction now a).1.triggerTime = now + a.interval)) ∧
    ((a.body a.fired).1 = false → (fireAction now a).1.isCancelled = true) := by
  obtain ⟨h1, h2, h3⟩ := runQueuedGo_find hnd hfind hlog
  refine ⟨h1, h2, h3, ?_, fun hr => fireAction_cancel_of_rep_false now a hr⟩
  intro hrep
  refine ⟨?_, ?_, ?_⟩
  · simp only [fireAction, hrep, if_true]
    exact h1
  · intro hcu
    simp [fireAction, hrep, hcu]
  · intro hcu
    simp [fireAction, hrep, hcu]

/-- Witness for C3: running a pass at time 10 over the registry holding the
due once-action 101 leaves the fireAction update of that record. -/
theorem runQueued_policy_w :
    findTicket 101 (LoopContext.runQueued 10 wQueued).1.queuedActions
      = some (fireAction 10 wAction).1 :=
  (runQueued_policy wQueued 10 101 wAction (by decide) (by rfl) (by decide)).2.2.1

/-- Claim C4: for a once-ticket (every record carrying it has a body that
always answers false): it is invoked at most once over any operation
sequence; after a successful cancel it is never invoked; after the pass in
which it fired, every record carrying it is cancelled, it is destroyed at the
next reconciliation, and it is never invoked again; and if its record is live
and due and no body requests termination, the reconcile-and-run cycle invokes
it exactly once. -/
theorem once_action_spec (s : LoopContext) (t : Nat)
    (hInv : Inv s) (ht : t ≤ s.ticketCounter) (honce : OnceTicket t s) :
    (∀ ops, (execOps ops s).2.count t ≤ 1) ∧
    ((Looper.cancel t s).2 = true →
      ∀ ops, (execOps ops (Looper.cancel t s).1).2.count t = 0) ∧
    (∀ now, t ∈ (LoopContext.runQueued now s).2.1 →
      (∀ b ∈ (LoopContext.runQueued now s).1.queuedActions,
        b.ticket = t → b.isCancelled = true) ∧
      t ∉ tickets (LoopContext.queuePending (LoopContext.runQueued now s).1).1 ∧
      (∀ ops, (execOps ops (LoopContext.runQueued now s).1).2.count t = 0)) ∧
    (∀ now a, (a ∈ s.queuedActions ∨ a ∈ s.pendingActions) → a.ticket = t →
      a.isCancelled = false → a.triggerTime ≤ now → NoQuit s →
      (execOps [Op.flush, Op.runq now] s).2.count t = 1) := by
  refine ⟨fun ops => once_count ops hInv ht honce, ?_, ?_, ?_⟩
  · intro hc ops
    exact List.count_eq_zero.mpr (Dead_execOps ops (cancel_dead hInv hc)).2
  · intro now hlog
    have hdead := once_fired_dead_state hInv ht honce hlog
    refine ⟨fun b hb hbt => hdead.2 b (Or.inl hb) hbt, ?_,
      fun ops => List.count_eq_zero.mpr (Dead_execOps ops hdead).2⟩
    intro hmem
    rw [tickets_eq] at hmem
    rcases List.mem_append.mp hmem with h | h
    · obtain ⟨b, hb, hbt⟩ := List.mem_map.mp h
      have hb2 : b ∈ (LoopContext.runQueued now s).1.pendingActions
          ++ (LoopContext.runQueued now s).1.queuedActions.filter
              (fun x => !x.isCancelled) := hb
      rcases List.mem_append.mp hb2 with h3 | h3
      · have hcanc := hdead.2 b (Or.inr h3) hbt
        obtain ⟨c, hc, hct, _⟩ := mem_log_runQueuedGo
          (show t ∈ (runQueuedGo now s.queuedActions).2.1 from hlog)
        have hqm : t ∈ s.queuedActions.map (fun x => x.ticket) := by
          rw [← hct]
          exact List.mem_map_of_mem _ hc
        have hpm : t ∈ s.pendingActions.map (fun x => x.ticket) := by
          rw [← hbt]
          exact List.mem_map_of_mem
            (f := fun x : ManagedAction => x.ticket) h3
        exact absurd hpm (Inv_disjoint hInv hqm)
      · have hcanc := hdead.2 b (Or.inl (List.mem_of_mem_filter h3)) hbt
        have h4 : (!b.isCancelled) = true :=
          List.of_mem_filter (p := fun x : ManagedAction => !x.isCancelled) h3
        rw [hcanc] at h4
        cases h4
    · have hnil : (LoopContext.queuePending (LoopContext.runQueued now s).1).1.pendingActions
          = ([] : List ManagedAction) := rfl
      rw [hnil] at h
      simp at h
  · intro now a ha hat hanc hdue hnq
    have hmemq : a ∈ (LoopContext.queuePending s).1.queuedActions := by
      rcases ha with h | h
      · exact List.mem_append_right _ (List.mem_filter.mpr ⟨h, by simp [hanc]⟩)
      · exact List.mem_append_left _ h
    have hnq2 : ∀ b ∈ (LoopContext.queuePending s).1.queuedActions,
        ∀ k, (b.body k).2 = false :=
      fun b hb => NoQuit_flush hnq b (Or.inl hb)
    have hfire : a.ticket ∈ (runQueuedGo now
        (LoopContext.queuePending s).1.queuedActions).2.1 :=
      runQueuedGo_fires hnq2 hmemq hanc hdue
    have hcount1 : (execOps [Op.flush, Op.runq now] s).2.count t ≤ 1 :=
      once_count [Op.flush, Op.runq now] hInv ht honce
    have heq : (execOps [Op.flush, Op.runq now] s).2
        = (runQueuedGo now (LoopContext.queuePending s).1.queuedActions).2.1 ++ [] := rfl
    have hpos : 0 < (execOps [Op.flush, Op.runq now] s).2.count t := by
      rw [heq, List.append_nil]
      exact List.count_pos_iff.mpr (hat ▸ hfire)
    omega

/-- Witness for C4: over the registry holding the queued once-action 101, any
pass invokes 101 at most once. -/
theorem once_action_spec_w :
    (execOps [Op.runq 10] wQueued).2.count 101 ≤ 1 :=
  (once_action_spec wQueued 101
    ⟨by intro a ha; simp [wQueued] at ha,
     by simp [tickets, wQueued, wAction],
     by decide,
     by simp [wQueued]⟩
    (by simp [wQueued])
    (by
      intro a ha hat k
      rcases ha with h | h
      · simp only [wQueued, List.mem_singleton] at h
        subst h
        rfl
      · simp [wQueued] at h)).1 [Op.runq 10]

/-- Claim C5 counterexample: tickets are not process-unique. Each LoopContext
starts its own counter at 100, so two loop instances in one process both
return 101 for their first scheduled action. -/
theorem tickets_not_process_unique :
    (LoopContext.scheduleImpl onceBody 0 0 false LoopContext.init).2 = 101 ∧
    (LoopContext.scheduleImpl repeatBody 7 3 true LoopContext.init).2 = 101 :=
  ⟨rfl, rfl⟩

/-- Claim C5 (amended): within a single loop instance, the tickets returned by
a sequence of scheduleImpl calls are strictly increasing (hence pairwise
distinct) and all exceed 100; process-wide uniqueness across instances does
not hold. -/
theorem schedule_tickets_strictly_increasing
    (xs : List ((Nat → Bool × Bool) × Timepoint × Nat × Bool)) (s : LoopContext)
    (h : 100 ≤ s.ticketCounter) :
    List.Pairwise (· < ·) (scheduleSeq xs s).2 ∧
    (∀ u ∈ (scheduleSeq xs s).2, 100 < u) ∧
    (scheduleSeq xs s).2.Nodup := by
  refine ⟨scheduleSeq_pairwise xs s, ?_, ?_⟩
  · intro u hu
    have h2 := scheduleSeq_gt xs s u hu
    omega
  · exact List.Pairwise.imp (fun h2 => Nat.ne_of_lt h2) (scheduleSeq_pairwise xs s)

/-- Witness for C5: three schedules on a fresh registry return distinct
tickets. -/
theorem schedule_tickets_strictly_increasing_w :
    (scheduleSeq [(onceBody, 0, 0, false), (repeatBody, 7, 3, true),
      (onceBody, 9, 0, false)] LoopContext.init).2.Nodup :=
  (schedule_tickets_strictly_increasing _ LoopContext.init (by decide)).2.2

/-- Claim C6 counterexample: action 101 is inserted into pending before action
102 and both are due at the pass at time 10, yet the pass invokes 102 before
101: the reconciliation placed the surviving queued action 101 behind the
newly pending action 102. -/
theorem fifo_order_counterexample :
    (execOps c6ops LoopContext.init).2 = [102, 101] := rfl

/-- Claim C6 (amended): a pass invokes queued actions in queued-sequence order
(the invocation log is a sublist of the queued tickets in order), a
reconciliation produces the pending entries in insertion order followed by the
surviving queued entries in order (so FIFO holds within a batch and among
survivors, but a survivor is placed behind newer pending entries), and a due
date not yet reached merely skips the action, leaving it queued for the next
cycle. -/
theorem firing_order_amended (s : LoopContext) (now : Nat) :
    List.Sublist (LoopContext.runQueued now s).2.1
      (s.queuedActions.map (fun a => a.ticket)) ∧
    (LoopContext.queuePending s).1.queuedActions
      = s.pendingActions ++ s.queuedActions.filter (fun a => !a.isCancelled) ∧
    (∀ a ∈ s.queuedActions, a.isCancelled = false → now < a.triggerTime →
      a ∈ (LoopContext.runQueued now s).1.queuedActions) := by
  refine ⟨runQueuedGo_log_sublist now s.queuedActions, rfl, ?_⟩
  intro a ha hnc hdue
  exact runQueuedGo_skip ha hnc hdue

/-- Witness for C6: the not-yet-due action 101 is still queued after a pass at
time 3. -/
theorem firing_order_amended_w :
    wAction ∈ (LoopContext.runQueued 3 wQueued).1.queuedActions :=
  (firing_order_amended wQueued 3).2.2 wAction (by simp [wQueued]) rfl (by decide)

/-- Claim C7: under the registry invariant, Looper::cancel returns true
exactly when some live (non-cancelled) record carries the ticket, and false on
an unknown or already-cancelled ticket; the queued sequence is scanned first,
and a queued hit never touches the pending sequence. -/
theorem cancel_found_iff (s : LoopContext) (t : Nat)
    (hp : ∀ a ∈ s.pendingActions, a.isCancelled = false)
    (hnd : (tickets s).Nodup) :
    ((Looper.cancel t s).2 = true ↔
      ∃ a, (a ∈ s.queuedActions ∨ a ∈ s.pendingActions) ∧
        a.ticket = t ∧ a.isCancelled = false) ∧
    ((LoopContext.tryCancelQueued t s).2 = true →
      (Looper.cancel t s).1.pendingActions = s.pendingActions) := by
  have hndq : (s.queuedActions.map (fun x => x.ticket)).Nodup := by
    rw [tickets_eq, List.nodup_append] at hnd
    exact hnd.1
  constructor
  · constructor
    · intro hc
      rcases cancel_cases t s with ⟨hq, heq⟩ | ⟨hq, heq⟩
      · obtain ⟨a, ha, hat, hanc⟩ := tcq_true_exists hq
        exact ⟨a, Or.inl ha, hat, hanc⟩
      · rw [heq] at hc
        obtain ⟨a, ha, hat⟩ := tcp_true_exists hc
        exact ⟨a, Or.inr ha, hat, hp a ha⟩
    · rintro ⟨a, ha | ha, hat, hanc⟩
      · rcases cancel_cases t s with ⟨hq, heq⟩ | ⟨hq, heq⟩
        · rw [heq]
        · exact absurd (tcq_exists_true hndq a ha hat hanc) (by simp [hq])
      · rcases cancel_cases t s with ⟨hq, heq⟩ | ⟨hq, heq⟩
        · rw [heq]
        · rw [heq]
          exact tcp_exists_true a ha hat
  · intro hq
    have hq2 : (tryCancelQueuedGo t s.queuedActions).2 = true := hq
    rcases cancel_cases t s with ⟨_, heq⟩ | ⟨hqf, heq⟩
    · rw [heq]
    · rw [hqf] at hq2
      cases hq2

/-- Witness for C7: cancelling the live queued action 101 returns true. -/
theorem cancel_found_iff_w :
    (Looper.cancel 101 wQueued).2 = true :=
  (cancel_found_iff wQueued 101
    (by intro a ha; simp [wQueued] at ha)
    (by simp [tickets, wQueued, wAction])).1.mpr
    ⟨wAction, Or.inl (by simp [wQueued]), rfl, rfl⟩

/-- Claim C8: Looper::quit marks every queued action cancelled in place,
destroys and clears every pending action, and sets the terminal flag; after it
a pass invokes no body and the run loop performs no further cycle. -/
theorem quit_spec (lp : Looper) :
    (Looper.quit lp).quitFlag = true ∧
    (∀ a ∈ (Looper.quit lp).context.queuedActions, a.isCancelled = true) ∧
    (Looper.quit lp).context.pendingActions = [] ∧
    (∀ now, (LoopContext.runQueued now (Looper.quit lp).context).2.1 = []) ∧
    (∀ nows, Looper.cycles nows (Looper.quit lp) = (Looper.quit lp, [])) := by
  have hq : ∀ a ∈ (Looper.quit lp).context.queuedActions, a.isCancelled = true := by
    intro a ha
    simp only [Looper.quit, Looper.cancelAll, LoopContext.cancelAllPending,
      LoopContext.cancelAllQueued, List.mem_map] at ha
    obtain ⟨b, _, rfl⟩ := ha
    rfl
  refine ⟨rfl, hq, rfl, fun now => runQueuedGo_all_cancelled hq, ?_⟩
  intro nows
  cases nows with
  | nil => rfl
  | cons now rest =>
    simp only [Looper.cycles]
    rw [if_pos (show (Looper.quit lp).quitFlag = true from rfl)]

/-- Witness for C8: after quit on the concrete loop, three further wake-ups
run no cycle and fire nothing. -/
theorem quit_spec_w :
    Looper.cycles [0, 7, 100] (Looper.quit wLooper) = (Looper.quit wLooper, []) :=
  (quit_spec wLooper).2.2.2.2 [0, 7, 100]

/-- Claim C9 counterexample: the static pointer sMainLooper is null before any
setMainLooper call, and loo::mainLooper dereferences it with no check: the
call reaches a null-pointer dereference (undefined behaviour), not a defined
failure or a well-defined not-set sentinel. -/
theorem mainLooper_unset_counterexample :
    mainLooper sMainLooperInit = DerefOutcome.nullDeref := rfl

/-- Claim C9 (amended): loo::mainLooper performs no not-set check: called
before any setMainLooper the result is the dereference of the null initial
pointer, i.e. undefined behaviour; after setMainLooper lp it returns lp. -/
theorem mainLooper_unchecked (lp : Looper) (s : Option Looper) :
    mainLooper sMainLooperInit = DerefOutcome.nullDeref ∧
    mainLooper (setMainLooper lp s) = DerefOutcome.ok lp :=
  ⟨rfl, rfl⟩

/-- Claim C10: along every operation sequence from the freshly constructed
registry, the pending sequence never holds a cancelled record: scheduleImpl
inserts records with the flag unset, reconciliation leaves pending empty, and
pending cancellation deletes outright; hence the assertion in
LoopContext::tryCancelPending that a matched pending record is not cancelled
can never fire. -/
theorem pending_never_cancelled (ops : List Op) :
    ((execOps ops LoopContext.init).1.pendingActions.all
      (fun a => !a.isCancelled)) = true := by
  have h : ∀ s, PendingOK s → PendingOK (execOps ops s).1 := by
    induction ops with
    | nil => exact fun s hs => hs
    | cons op ops ih => exact fun s hs => ih _ (PendingOK_execOp op hs)
  have h2 : PendingOK (execOps ops LoopContext.init).1 :=
    h _ (by intro a ha; simp [LoopContext.init] at ha)
  rw [List.all_eq_true]
  intro a ha
  simp [h2 a ha]

end Loo
